import Mathlib

/-!
Verification development for the crypto-charts pipeline
(source file: eth_ema_chart.py).

The source is a linear pipeline: fetch price history from a market-data
HTTP endpoint, compute two exponential moving averages with
ewm(span=N, adjust=False).mean(), render a chart, upload it to an image
host, and record the resulting URLs in a flat text file.

Embedding choices:
* prices are rationals (the numeric recurrence of the source, exactly);
* an HTTP interaction is modelled by the sequence of responses the
  upstream returns for the successive GET requests of one fetch call
  (the source retries the request recursively on status 429, consuming
  one more response per retry);
* the filesystem state is the ledger file content (a list of lines) plus
  a predicate recording which chart image files exist on disk;
* functions keep the names of the source functions they embed.
-/

namespace CryptoCharts

/-! ### EMA transform: df.ewm(span=N, adjust=False).mean() -/

/-- Smoothing factor for a span parameter: alpha = 2 / (N + 1). -/
def alphaOfSpan (N : ℕ) : ℚ := 2 / (N + 1)

/-- Tail of the adjust=False exponential moving average: given the
previous output value, each new output is p * alpha + prev * (1 - alpha). -/
def emaAcc (α : ℚ) : ℚ → List ℚ → List ℚ
  | _, [] => []
  | prev, p :: ps => (p * α + prev * (1 - α)) :: emaAcc α (p * α + prev * (1 - α)) ps

/-- Exponential moving average with adjust=False: the first output equals
the first input, then the recurrence of emaAcc. -/
def ema (α : ℚ) : List ℚ → List ℚ
  | [] => []
  | p :: ps => p :: emaAcc α p ps

theorem emaAcc_length (α : ℚ) (prev : ℚ) (ps : List ℚ) :
    (emaAcc α prev ps).length = ps.length := by
  induction ps generalizing prev with
  | nil => rfl
  | cons p ps ih => simp [emaAcc, ih]

theorem ema_length (α : ℚ) (ps : List ℚ) : (ema α ps).length = ps.length := by
  cases ps with
  | nil => rfl
  | cons p ps => simp [ema, emaAcc_length]

theorem emaAcc_getD_succ (α : ℚ) (ps : List ℚ) :
    ∀ (prev : ℚ) (i : ℕ), i + 1 < ps.length →
      (emaAcc α prev ps).getD (i + 1) 0 =
        ps.getD (i + 1) 0 * α + (emaAcc α prev ps).getD i 0 * (1 - α) := by
  induction ps with
  | nil => intro prev i h; simp at h
  | cons p tl ih =>
    intro prev i h
    cases i with
    | zero =>
      cases tl with
      | nil => simp at h
      | cons q tl2 => simp [emaAcc]
    | succ j =>
      have hj : j + 1 < tl.length := by
        simpa using Nat.lt_of_succ_lt_succ h
      simpa [emaAcc] using ih (p * α + prev * (1 - α)) j hj

/-- C1: for a non-empty price series and span parameter N, the EMA
transform (pandas ewm(span=N, adjust=False).mean(), as used to build the
EXP_9 and EXP_21 columns) produces an output of the same length as the
input, whose first element equals the first input price, and whose
element at each subsequent index t+1 equals
price_(t+1) * alpha + output_t * (1 - alpha) with alpha = 2 / (N + 1). -/
theorem ema_spec (N : ℕ) (ps : List ℚ) (h : ps ≠ []) :
    (ema (alphaOfSpan N) ps).length = ps.length ∧
    (ema (alphaOfSpan N) ps).getD 0 0 = ps.getD 0 0 ∧
    ∀ t : ℕ, t + 1 < ps.length →
      (ema (alphaOfSpan N) ps).getD (t + 1) 0 =
        ps.getD (t + 1) 0 * alphaOfSpan N +
          (ema (alphaOfSpan N) ps).getD t 0 * (1 - alphaOfSpan N) := by
  cases ps with
  | nil => exact absurd rfl h
  | cons p tl =>
    refine ⟨ema_length _ _, rfl, ?_⟩
    intro t ht
    cases t with
    | zero =>
      cases tl with
      | nil => simp at ht
      | cons q tl2 => simp [ema, emaAcc]
    | succ j =>
      have hj : j + 1 < tl.length := by
        simpa using Nat.lt_of_succ_lt_succ ht
      simpa [ema] using emaAcc_getD_succ (alphaOfSpan N) tl p j hj

theorem ema_spec_witness :
    ([1, 2] : List ℚ) ≠ [] ∧
    (ema (alphaOfSpan 9) [(1 : ℚ), 2]).getD 1 0 =
      ([(1 : ℚ), 2].getD 1 0) * alphaOfSpan 9 +
        (ema (alphaOfSpan 9) [(1 : ℚ), 2]).getD 0 0 * (1 - alphaOfSpan 9) :=
  ⟨by simp, (ema_spec 9 [(1 : ℚ), 2] (by simp)).2.2 0 (by simp)⟩

theorem emaAcc_const (α c : ℚ) : ∀ n : ℕ,
    emaAcc α c (List.replicate n c) = List.replicate n c := by
  intro n
  induction n with
  | zero => rfl
  | succ m ih =>
    have he : c * α + c * (1 - α) = c := by ring
    simp only [List.replicate_succ, emaAcc, he, ih]

/-- C7: for a constant price series (every price equal to c) and any span
parameter, the EMA output equals c at every index. -/
theorem ema_constant (N n : ℕ) (c : ℚ) :
    ema (alphaOfSpan N) (List.replicate n c) = List.replicate n c := by
  cases n with
  | zero => rfl
  | succ m => simp only [List.replicate_succ, ema, emaAcc_const]

/-! ### Market data client: fetch_data_from_coingecko -/

/-- One HTTP response from the market-data endpoint: its status code and,
for JSON bodies, the content of the response field holding the list of
[timestamp, price] rows when that field is present. -/
structure HttpResponse where
  status : ℕ
  prices : Option (List (ℕ × ℚ))
deriving DecidableEq

/-- The DataFrame built by fetch_data_from_coingecko: the PRICE column
and the two EMA columns EXP_9 and EXP_21. -/
structure DataFrame where
  price : List ℚ
  exp9 : List ℚ
  exp21 : List ℚ
deriving DecidableEq

/-- pd.DataFrame(), the empty frame returned on errors. -/
def emptyDF : DataFrame := ⟨[], [], []⟩

/-- DataFrame construction from the rows of the prices field: the PRICE
column keeps the second component of each row, and the EXP_9 and EXP_21
columns are ewm(span=9, adjust=False).mean() and
ewm(span=21, adjust=False).mean() of the PRICE column. -/
def mkDF (rows : List (ℕ × ℚ)) : DataFrame :=
  ⟨rows.map (fun r => r.2),
   ema (alphaOfSpan 9) (rows.map (fun r => r.2)),
   ema (alphaOfSpan 21) (rows.map (fun r => r.2))⟩

/-- fetch_data_from_coingecko, over the sequence of responses the
upstream returns to this call's successive GET requests: on status 429
it sleeps and retries, consuming the next response; on any other
non-200 status it returns the empty frame; on a 200 body without the
prices field it returns the empty frame; otherwise it builds the frame.
The none result models the call still retrying when the modelled
response sequence is exhausted. -/
def fetch_data_from_coingecko : List HttpResponse → Option DataFrame
  | [] => none
  | r :: rest =>
    if r.status = 429 then fetch_data_from_coingecko rest
    else if r.status ≠ 200 then some emptyDF
    else
      match r.prices with
      | none => some emptyDF
      | some rows => some (mkDF rows)

/-- Number of GET requests a fetch call issues against a given response
sequence: one per response consumed, i.e. one plus the number of
rate-limited responses seen before the first non-429 response. -/
def fetchRequests : List HttpResponse → ℕ
  | [] => 0
  | r :: rest => if r.status = 429 then 1 + fetchRequests rest else 1

/-- C2 counterexample: against the response sequence 429, 429, then 200
with data, the client issues three requests (the initial one plus two
retries) and succeeds, so it does not retry exactly once. -/
theorem fetch_two_retries_counterexample :
    fetch_data_from_coingecko
        [⟨429, none⟩, ⟨429, none⟩, ⟨200, some [(0, 3)]⟩] =
      some (mkDF [(0, 3)]) ∧
    fetchRequests [⟨429, none⟩, ⟨429, none⟩, ⟨200, some [(0, 3)]⟩] = 3 := by
  constructor <;> rfl

/-- C2 (amended): on rate-limiting the client pauses and retries again,
with no bound on the number of retries: any run of 429 responses is
consumed, one extra request each, and the call then behaves as a fresh
call on the remaining responses; in particular it succeeds as soon as a
retry returns a 200 response carrying the prices field. -/
theorem fetch_retries_until_not_rate_limited (pre rest : List HttpResponse)
    (hpre : ∀ x ∈ pre, x.status = 429) :
    fetch_data_from_coingecko (pre ++ rest) = fetch_data_from_coingecko rest ∧
    fetchRequests (pre ++ rest) = pre.length + fetchRequests rest ∧
    ∀ (r : HttpResponse) (rows : List (ℕ × ℚ)), r.status = 200 →
      r.prices = some rows →
      fetch_data_from_coingecko (pre ++ [r]) = some (mkDF rows) := by
  induction pre with
  | nil =>
    refine ⟨rfl, by simp [fetchRequests], ?_⟩
    intro r rows hs hp
    simp [fetch_data_from_coingecko, hs, hp]
  | cons x pre ih =>
    have hx : x.status = 429 := hpre x (by simp)
    have hrec := ih (fun y hy => hpre y (by simp [hy]))
    refine ⟨?_, ?_, ?_⟩
    · simpa [fetch_data_from_coingecko, hx] using hrec.1
    · simp [fetchRequests, hx, hrec.2.1]
      omega
    · intro r rows hs hp
      simpa [fetch_data_from_coingecko, hx] using hrec.2.2 r rows hs hp

theorem fetch_retries_until_not_rate_limited_witness :
    (∀ x ∈ [(⟨429, none⟩ : HttpResponse)], x.status = 429) ∧
    fetch_data_from_coingecko
        ([⟨429, none⟩] ++ [(⟨200, some [(0, 3)]⟩ : HttpResponse)]) =
      fetch_data_from_coingecko [(⟨200, some [(0, 3)]⟩ : HttpResponse)] :=
  ⟨by decide,
   (fetch_retries_until_not_rate_limited
      [⟨429, none⟩] [⟨200, some [(0, 3)]⟩] (by decide)).1⟩

/-- C3: a response whose status is neither 429 nor 200, or a 200 response
whose JSON body lacks the prices field, makes the client return the empty
frame: a value, not a raised fault. -/
theorem fetch_error_returns_empty (r : HttpResponse) (rest : List HttpResponse)
    (h : (r.status ≠ 429 ∧ r.status ≠ 200) ∨ (r.status = 200 ∧ r.prices = none)) :
    fetch_data_from_coingecko (r :: rest) = some emptyDF := by
  rcases h with ⟨h429, h200⟩ | ⟨h200, hpr⟩
  · simp [fetch_data_from_coingecko, h429, h200]
  · simp [fetch_data_from_coingecko, h200, hpr]

theorem fetch_error_returns_empty_witness :
    fetch_data_from_coingecko [(⟨500, none⟩ : HttpResponse)] = some emptyDF ∧
    fetch_data_from_coingecko [(⟨200, none⟩ : HttpResponse)] = some emptyDF :=
  ⟨fetch_error_returns_empty ⟨500, none⟩ [] (Or.inl (by decide)),
   fetch_error_returns_empty ⟨200, none⟩ [] (Or.inr (by decide))⟩

/-! ### Chart pipeline: generate_and_upload_chart, save_chart_urls, main -/

/-- Filesystem state: the lines of latest_chart_urls.txt and a predicate
recording which chart image files exist on disk. -/
structure FsState where
  ledger : List String
  charts : String → Bool

/-- External outcomes for one asset of a run: the upstream responses its
fetch call consumes, and the result of upload_to_imgur for its chart
(some (link, image id) on a 200 upload response, none on failure). -/
structure AssetOutcome where
  responses : List HttpResponse
  upload : Option (String × String)

/-- generate_and_upload_chart: fetch the data; on an empty frame print
and return None; otherwise render the chart image to disk and upload it;
on upload success append the SYMBOL: URL line to latest_chart_urls.txt,
delete the local image file and return the URL; on upload failure return
None leaving the image file on disk. The outer none propagates a fetch
whose modelled response sequence never leaves the retry loop. -/
def generate_and_upload_chart (asset : String) (o : AssetOutcome) (s : FsState) :
    Option (Option String × FsState) :=
  match fetch_data_from_coingecko o.responses with
  | none => none
  | some df =>
    if df.price.isEmpty then some (none, s)
    else
      let s1 : FsState :=
        ⟨s.ledger, fun f => if f = asset ++ "_chart.png" then true else s.charts f⟩
      match o.upload with
      | none => some (none, s1)
      | some (url, _) =>
        some (some url,
          ⟨s1.ledger ++ [asset ++ ": " ++ url],
           fun f => if f = asset ++ "_chart.png" then false else s1.charts f⟩)

/-- save_chart_urls: overwrite latest_chart_urls.txt with one
SYMBOL: URL line per entry of the links mapping. -/
def save_chart_urls (links : List (String × String)) (s : FsState) : FsState :=
  ⟨links.map (fun au => au.1 ++ ": " ++ au.2), s.charts⟩

/-- The fixed asset list of main. -/
def assets : List (String × String) :=
  [("ETH", "ethereum"), ("AVAX", "avalanche-2"), ("XLM", "stellar"),
   ("ONDO", "ondo-finance")]

/-- The loop body of main: process each asset in order, recording the
returned URL in the links mapping when there is one and continuing with
the next asset otherwise. -/
def processAssets : List ((String × String) × AssetOutcome) → FsState →
    Option (List (String × String) × FsState)
  | [], s => some ([], s)
  | (a, o) :: rest, s =>
    match generate_and_upload_chart a.1 o s with
    | none => none
    | some (link, s1) =>
      match processAssets rest s1 with
      | none => none
      | some (links, s2) =>
        match link with
        | some url => some ((a.1, url) :: links, s2)
        | none => some (links, s2)

/-- main: run the pipeline over the fixed asset list, then overwrite
latest_chart_urls.txt with the collected links, but only when at least
one link was collected. -/
def main (outs : List AssetOutcome) (s : FsState) :
    Option (List (String × String) × FsState) :=
  match processAssets (assets.zip outs) s with
  | none => none
  | some (links, s1) => some (links, if links.isEmpty then s1 else save_chart_urls links s1)

/-- The link an asset outcome publishes: some URL exactly when the fetch
terminates with a non-empty frame and the upload succeeds. -/
def publishedLink (o : AssetOutcome) : Option String :=
  match fetch_data_from_coingecko o.responses with
  | none => none
  | some df => if df.price.isEmpty then none else o.upload.map (fun ui => ui.1)

/-- The symbol to URL entries of the assets that publish successfully,
in processing order. -/
def successLinks (ps : List ((String × String) × AssetOutcome)) :
    List (String × String) :=
  ps.filterMap (fun p => (publishedLink p.2).map (fun url => (p.1.1, url)))

/-- An asset outcome that fails: the fetch terminates but yields an empty
frame, or the upload fails. -/
def assetFails (o : AssetOutcome) : Bool :=
  match fetch_data_from_coingecko o.responses with
  | none => false
  | some df => df.price.isEmpty || o.upload.isNone

/-- The ledger lines one asset appends during its pipeline step: its
SYMBOL: URL line when it returns a URL, nothing otherwise. -/
def appendedLines (a : String) : Option String → List String
  | some url => [a ++ ": " ++ url]
  | none => []

theorem gen_spec (a : String) (o : AssetOutcome) (s : FsState)
    (l : Option String) (s1 : FsState)
    (h : generate_and_upload_chart a o s = some (l, s1)) :
    l = publishedLink o ∧ s1.ledger = s.ledger ++ appendedLines a l := by
  unfold generate_and_upload_chart at h
  cases hf : fetch_data_from_coingecko o.responses with
  | none => rw [hf] at h; simp at h
  | some df =>
    rw [hf] at h
    unfold publishedLink
    rw [hf]
    cases he : df.price.isEmpty with
    | true =>
      simp only [he, if_true] at h
      obtain ⟨hl, hs⟩ := Prod.mk.inj (Option.some.inj h)
      subst hl; subst hs
      simp [he, appendedLines]
    | false =>
      simp only [he, Bool.false_eq_true, if_false] at h
      cases hu : o.upload with
      | none =>
        rw [hu] at h
        obtain ⟨hl, hs⟩ := Prod.mk.inj (Option.some.inj h)
        subst hl; subst hs
        simp [he, hu, appendedLines]
      | some ui =>
        obtain ⟨url, imgId⟩ := ui
        rw [hu] at h
        obtain ⟨hl, hs⟩ := Prod.mk.inj (Option.some.inj h)
        subst hl; subst hs
        simp [he, hu, appendedLines]

theorem processAssets_spec :
    ∀ (ps : List ((String × String) × AssetOutcome)) (s : FsState)
      (links : List (String × String)) (s2 : FsState),
      processAssets ps s = some (links, s2) →
      links = successLinks ps ∧
      s2.ledger = s.ledger ++ links.map (fun au => au.1 ++ ": " ++ au.2) := by
  intro ps
  induction ps with
  | nil =>
    intro s links s2 h
    obtain ⟨hl, hs⟩ := Prod.mk.inj (Option.some.inj h)
    subst hl; subst hs
    simp [successLinks]
  | cons p rest ih =>
    intro s links s2 h
    obtain ⟨a, o⟩ := p
    unfold processAssets at h
    cases hg : generate_and_upload_chart a.1 o s with
    | none => rw [hg] at h; simp at h
    | some res =>
      obtain ⟨link, s1⟩ := res
      rw [hg] at h
      dsimp only at h
      obtain ⟨hpub, hled⟩ := gen_spec a.1 o s link s1 hg
      cases hr : processAssets rest s1 with
      | none => rw [hr] at h; simp at h
      | some res2 =>
        obtain ⟨links2, s3⟩ := res2
        rw [hr] at h
        dsimp only at h
        obtain ⟨ih1, ih2⟩ := ih s1 links2 s3 hr
        cases link with
        | none =>
          obtain ⟨hl, hs⟩ := Prod.mk.inj (Option.some.inj h)
          subst hl; subst hs
          constructor
          · rw [ih1]
            simp [successLinks, ← hpub]
          · rw [ih2, hled]
            simp [appendedLines]
        | some url =>
          obtain ⟨hl, hs⟩ := Prod.mk.inj (Option.some.inj h)
          subst hl; subst hs
          constructor
          · rw [ih1]
            simp [successLinks, ← hpub]
          · rw [ih2, hled]
            simp [appendedLines]

/-- C4 counterexample: in a run where every asset fails, the final ledger
file keeps its pre-run content, here a line naming ETH even though ETH
failed in this run, so the file is not rewritten every run and a failed
asset is not always absent from the final file. -/
theorem stale_ledger_counterexample :
    main [⟨[⟨500, none⟩], none⟩, ⟨[⟨500, none⟩], none⟩,
          ⟨[⟨500, none⟩], none⟩, ⟨[⟨500, none⟩], none⟩]
        ⟨["ETH: https://img.example/old"], fun _ => false⟩ =
      some ([], ⟨["ETH: https://img.example/old"], fun _ => false⟩) ∧
    assetFails ⟨[⟨500, none⟩], none⟩ = true := by
  exact ⟨rfl, rfl⟩

/-- C4 (amended): in every run in which at least one asset publishes
successfully, the final ledger file contains exactly one SYMBOL: URL line
per successfully published asset, in processing order, the file being
fully rewritten at the end of the run after the incremental per-asset
appends; in a run in which no asset publishes, the file keeps its prior
content. -/
theorem main_ledger_lines (outs : List AssetOutcome) (s : FsState)
    (links : List (String × String)) (led : List String)
    (h : (main outs s).map (fun r => (r.1, r.2.ledger)) = some (links, led))
    (hne : links ≠ []) :
    links = successLinks (assets.zip outs) ∧
    led = links.map (fun au => au.1 ++ ": " ++ au.2) := by
  unfold main at h
  cases hp : processAssets (assets.zip outs) s with
  | none => rw [hp] at h; simp at h
  | some res =>
    obtain ⟨links0, s1⟩ := res
    rw [hp] at h
    dsimp only [Option.map] at h
    obtain ⟨hl, hled⟩ := Prod.mk.inj (Option.some.inj h)
    subst hl
    obtain ⟨hs1, _⟩ := processAssets_spec (assets.zip outs) s links0 s1 hp
    refine ⟨hs1, ?_⟩
    have hne2 : links0.isEmpty = false := by
      cases links0 with
      | nil => exact absurd rfl hne
      | cons x xs => rfl
    rw [hne2] at hled
    simp only [Bool.false_eq_true, if_false, save_chart_urls] at hled
    exact hled.symm

theorem main_ledger_lines_witness :
    [("ETH", "https://i.example/x")] =
      successLinks (assets.zip
        [⟨[⟨200, some [(0, 5)]⟩], some ("https://i.example/x", "id1")⟩]) ∧
    ["ETH: https://i.example/x"] =
      [("ETH", "https://i.example/x")].map (fun au => au.1 ++ ": " ++ au.2) :=
  main_ledger_lines
    [⟨[⟨200, some [(0, 5)]⟩], some ("https://i.example/x", "id1")⟩]
    ⟨[], fun _ => false⟩
    [("ETH", "https://i.example/x")] ["ETH: https://i.example/x"]
    rfl (by simp)

/-- C5: when the upstream 200 response for an asset lacks the prices
field, the pipeline step for that asset produces no chart, no upload and
no ledger line, leaves the state untouched, and the loop over the
remaining assets behaves exactly as if the asset were not there. -/
theorem skip_asset_missing_prices (asset sym : String) (o : AssetOutcome)
    (r : HttpResponse) (rs : List HttpResponse)
    (rest : List ((String × String) × AssetOutcome)) (s : FsState)
    (hresp : o.responses = r :: rs) (hstat : r.status = 200)
    (hpr : r.prices = none) :
    processAssets (((asset, sym), o) :: rest) s = processAssets rest s := by
  have hf : fetch_data_from_coingecko o.responses = some emptyDF := by
    rw [hresp]
    simp [fetch_data_from_coingecko, hstat, hpr]
  have hg : generate_and_upload_chart asset o s = some (none, s) := by
    simp [generate_and_upload_chart, hf, emptyDF]
  cases hr : processAssets rest s with
  | none =>
    simp only [processAssets, hg, hr]
  | some res =>
    obtain ⟨links, s2⟩ := res
    simp only [processAssets, hg, hr]

theorem skip_asset_missing_prices_witness :
    processAssets
        [(("ETH", "ethereum"), ⟨[⟨200, none⟩], none⟩),
         (("AVAX", "avalanche-2"), ⟨[⟨200, some [(0, 7)]⟩], none⟩)]
        ⟨[], fun _ => false⟩ =
      processAssets [(("AVAX", "avalanche-2"), ⟨[⟨200, some [(0, 7)]⟩], none⟩)]
        ⟨[], fun _ => false⟩ :=
  skip_asset_missing_prices "ETH" "ethereum" ⟨[⟨200, none⟩], none⟩
    ⟨200, none⟩ [] [(("AVAX", "avalanche-2"), ⟨[⟨200, some [(0, 7)]⟩], none⟩)]
    ⟨[], fun _ => false⟩ rfl rfl rfl

theorem processAssets_all_fail :
    ∀ (ps : List ((String × String) × AssetOutcome)) (s : FsState),
      (∀ p ∈ ps, assetFails p.2 = true) →
      ∃ s2, processAssets ps s = some ([], s2) ∧ s2.ledger = s.ledger := by
  intro ps
  induction ps with
  | nil => intro s _; exact ⟨s, rfl, rfl⟩
  | cons p rest ih =>
    intro s hall
    obtain ⟨a, o⟩ := p
    have ho : assetFails o = true := hall (a, o) (by simp)
    unfold assetFails at ho
    cases hf : fetch_data_from_coingecko o.responses with
    | none => rw [hf] at ho; simp at ho
    | some df =>
      rw [hf] at ho
      dsimp only at ho
      have hgen : ∃ s1, generate_and_upload_chart a.1 o s = some (none, s1) ∧
          s1.ledger = s.ledger := by
        cases he : df.price.isEmpty with
        | true =>
          refine ⟨s, ?_, rfl⟩
          simp [generate_and_upload_chart, hf, he]
        | false =>
          rw [he] at ho
          simp only [Bool.false_or] at ho
          have hu : o.upload = none := Option.isNone_iff_eq_none.mp ho
          refine ⟨⟨s.ledger,
            fun f => if f = a.1 ++ "_chart.png" then true else s.charts f⟩, ?_, rfl⟩
          simp [generate_and_upload_chart, hf, he, hu]
      obtain ⟨s1, hg, hl1⟩ := hgen
      obtain ⟨s2, hrest, hl2⟩ := ih s1 (fun q hq => hall q (by simp [hq]))
      refine ⟨s2, ?_, by rw [hl2, hl1]⟩
      unfold processAssets
      rw [hg]
      dsimp only
      rw [hrest]

/-- C6: a run in which every asset fails (empty fetch result or failed
upload) still terminates with a value: the links mapping is empty and the
ledger file content is exactly what it was before the run, so a run
started with an empty ledger ends with an empty ledger and no fault is
propagated to the caller. -/
theorem main_all_fail (outs : List AssetOutcome) (s : FsState)
    (h : ∀ p ∈ assets.zip outs, assetFails p.2 = true) :
    (main outs s).map (fun r => (r.1, r.2.ledger)) = some ([], s.ledger) := by
  obtain ⟨s2, hp, hl⟩ := processAssets_all_fail (assets.zip outs) s h
  unfold main
  rw [hp]
  simp [hl]

theorem main_all_fail_witness :
    (∀ p ∈ assets.zip
        [(⟨[⟨404, none⟩], none⟩ : AssetOutcome), ⟨[⟨404, none⟩], none⟩,
         ⟨[⟨404, none⟩], none⟩, ⟨[⟨404, none⟩], none⟩],
      assetFails p.2 = true) ∧
    (main
        [(⟨[⟨404, none⟩], none⟩ : AssetOutcome), ⟨[⟨404, none⟩], none⟩,
         ⟨[⟨404, none⟩], none⟩, ⟨[⟨404, none⟩], none⟩]
        ⟨[], fun _ => false⟩).map (fun r => (r.1, r.2.ledger)) =
      some ([], (FsState.mk [] (fun _ => false)).ledger) :=
  ⟨by decide,
   main_all_fail
     [⟨[⟨404, none⟩], none⟩, ⟨[⟨404, none⟩], none⟩,
      ⟨[⟨404, none⟩], none⟩, ⟨[⟨404, none⟩], none⟩]
     ⟨[], fun _ => false⟩ (by decide)⟩

/-- C9: for an asset whose chart is rendered (non-empty fetch result),
the local chart image file asset_chart.png is deleted exactly when the
upload succeeds: on success the step returns the URL, the file is gone
and the SYMBOL: URL line is appended; on upload failure the step returns
None, the rendered file is still on disk and the ledger is untouched. -/
theorem chart_file_cleanup (asset : String) (o : AssetOutcome) (s : FsState)
    (df : DataFrame) (hf : fetch_data_from_coingecko o.responses = some df)
    (hne : df.price.isEmpty = false) :
    (generate_and_upload_chart asset o s).map
        (fun p => (p.1, p.2.charts (asset ++ "_chart.png"), p.2.ledger)) =
      match o.upload with
      | some (url, _) => some (some url, false, s.ledger ++ [asset ++ ": " ++ url])
      | none => some (none, true, s.ledger) := by
  cases hu : o.upload with
  | none => simp [generate_and_upload_chart, hf, hne, hu]
  | some ui =>
    obtain ⟨url, imgId⟩ := ui
    simp [generate_and_upload_chart, hf, hne, hu]

theorem chart_file_cleanup_witness :
    ((generate_and_upload_chart "ETH"
          ⟨[⟨200, some [(0, 5)]⟩], some ("https://i.example/x", "id1")⟩
          ⟨[], fun _ => false⟩).map
        (fun p => (p.1, p.2.charts ("ETH" ++ "_chart.png"), p.2.ledger)) =
      some (some "https://i.example/x", false,
        ([] : List String) ++ ["ETH" ++ ": " ++ "https://i.example/x"])) ∧
    ((generate_and_upload_chart "AVAX"
          ⟨[⟨200, some [(0, 5)]⟩], none⟩ ⟨[], fun _ => false⟩).map
        (fun p => (p.1, p.2.charts ("AVAX" ++ "_chart.png"), p.2.ledger)) =
      some (none, true, ([] : List String))) :=
  ⟨chart_file_cleanup "ETH"
      ⟨[⟨200, some [(0, 5)]⟩], some ("https://i.example/x", "id1")⟩
      ⟨[], fun _ => false⟩ (mkDF [(0, 5)]) rfl rfl,
   chart_file_cleanup "AVAX" ⟨[⟨200, some [(0, 5)]⟩], none⟩
      ⟨[], fun _ => false⟩ (mkDF [(0, 5)]) rfl rfl⟩

/-- C10: the ledger file is written in append mode during the run (each
per-asset step leaves the prior lines as a prefix of the file), and the
final overwrite happens only when some asset succeeded: in a run
returning no links, the final ledger content equals the pre-run
content. -/
theorem ledger_append_mode_and_kept :
    (∀ (a : String) (o : AssetOutcome) (s : FsState) (l : Option String)
        (s1 : FsState),
      generate_and_upload_chart a o s = some (l, s1) →
      s1.ledger.take s.ledger.length = s.ledger) ∧
    (∀ (outs : List AssetOutcome) (s : FsState)
        (r : List (String × String) × FsState),
      main outs s = some r → r.1 = [] → r.2.ledger = s.ledger) := by
  constructor
  · intro a o s l s1 h
    obtain ⟨_, hled⟩ := gen_spec a o s l s1 h
    rw [hled]
    exact List.take_left _ _
  · intro outs s r h hnil
    unfold main at h
    cases hp : processAssets (assets.zip outs) s with
    | none => rw [hp] at h; simp at h
    | some res =>
      obtain ⟨links, s1⟩ := res
      rw [hp] at h
      dsimp only at h
      obtain ⟨hs1, hled⟩ := processAssets_spec (assets.zip outs) s links s1 hp
      have hr : r = (links, if links.isEmpty then s1 else save_chart_urls links s1) :=
        (Option.some.inj h).symm
      rw [hr] at hnil ⊢
      dsimp only at hnil ⊢
      subst hnil
      simp only [List.isEmpty_nil, if_true]
      simpa using hled

theorem ledger_append_mode_and_kept_witness :
    ((FsState.mk ["A: u"] (fun _ => false)).ledger.take
        (FsState.mk ["A: u"] (fun _ => false)).ledger.length =
      (FsState.mk ["A: u"] (fun _ => false)).ledger) ∧
    ((FsState.mk ["A: u"] (fun _ => false)).ledger =
      (FsState.mk ["A: u"] (fun _ => false)).ledger) :=
  ⟨ledger_append_mode_and_kept.1 "ETH" ⟨[⟨500, none⟩], none⟩
      ⟨["A: u"], fun _ => false⟩ none ⟨["A: u"], fun _ => false⟩ rfl,
   ledger_append_mode_and_kept.2 [⟨[⟨500, none⟩], none⟩]
      ⟨["A: u"], fun _ => false⟩ ([], ⟨["A: u"], fun _ => false⟩) rfl rfl⟩

/-! ### Step response of the EMA transform -/

/-- A price series constant at u before index m and constant at v from
index m onward. -/
def stepSeries (m n : ℕ) (u v : ℚ) : List ℚ :=
  List.replicate m u ++ List.replicate n v

/-- Cumulative distance of the EMA output to a target value over the
window of W indices starting at index k. -/
def cumDist (α : ℚ) (ps : List ℚ) (k W : ℕ) (target : ℚ) : ℚ :=
  ∑ t ∈ Finset.range W, |(ema α ps).getD (k + t) 0 - target|

theorem emaAcc_const_then (α u : ℚ) (rest : List ℚ) :
    ∀ m : ℕ, emaAcc α u (List.replicate m u ++ rest) =
      List.replicate m u ++ emaAcc α u rest := by
  intro m
  induction m with
  | zero => rfl
  | succ k ih =>
    have he : u * α + u * (1 - α) = u := by ring
    simp only [List.replicate_succ, List.cons_append, emaAcc, he]
    exact congrArg (fun l => u :: l) ih

theorem emaAcc_step (α v : ℚ) :
    ∀ (n : ℕ) (u : ℚ), emaAcc α u (List.replicate n v) =
      (List.range n).map (fun j => v + (1 - α) ^ (j + 1) * (u - v)) := by
  intro n
  induction n with
  | zero => intro u; rfl
  | succ k ih =>
    intro u
    simp only [List.replicate_succ, emaAcc, List.range_succ_eq_map,
      List.map_cons, List.map_map, ih]
    refine List.cons_eq_cons.mpr ⟨by ring, ?_⟩
    apply List.map_congr_left
    intro j _
    simp only [Function.comp_apply, Nat.succ_eq_add_one]
    ring

theorem ema_step (α u v : ℚ) (m n : ℕ) :
    ema α (stepSeries (m + 1) n u v) =
      List.replicate (m + 1) u ++
        (List.range n).map (fun j => v + (1 - α) ^ (j + 1) * (u - v)) := by
  unfold stepSeries
  rw [List.replicate_succ, List.cons_append]
  show ema α (u :: (List.replicate m u ++ List.replicate n v)) = _
  rw [show ema α (u :: (List.replicate m u ++ List.replicate n v)) =
      u :: emaAcc α u (List.replicate m u ++ List.replicate n v) from rfl]
  rw [emaAcc_const_then, emaAcc_step]
  rfl

theorem ema_step_getD (α u v : ℚ) (m n t : ℕ) (ht : t < n) :
    (ema α (stepSeries (m + 1) n u v)).getD (m + 1 + t) 0 =
      v + (1 - α) ^ (t + 1) * (u - v) := by
  rw [ema_step]
  rw [List.getD_eq_getElem?_getD, List.getElem?_append_right (by simp)]
  simp [ht]

theorem alphaOfSpan_le_one (a : ℕ) (ha : 1 ≤ a) : alphaOfSpan a ≤ 1 := by
  unfold alphaOfSpan
  rw [div_le_one (by positivity)]
  have haq : (1 : ℚ) ≤ (a : ℚ) := by exact_mod_cast ha
  linarith

theorem alphaOfSpan_lt_one (b : ℕ) (hb : 2 ≤ b) : alphaOfSpan b < 1 := by
  unfold alphaOfSpan
  rw [div_lt_one (by positivity)]
  have hbq : (2 : ℚ) ≤ (b : ℚ) := by exact_mod_cast hb
  linarith

theorem alphaOfSpan_strict_anti (a b : ℕ) (hab : a < b) :
    alphaOfSpan b < alphaOfSpan a := by
  unfold alphaOfSpan
  have ha : (0 : ℚ) < (a : ℚ) + 1 := by positivity
  have hb : (0 : ℚ) < (b : ℚ) + 1 := by positivity
  rw [div_lt_div_iff₀ hb ha]
  have habq : (a : ℚ) < (b : ℚ) := by exact_mod_cast hab
  nlinarith

/-- C8: for spans a < b (with a at least 1), over a series constant at u
before index m+1 and constant at v from there on, with u different
from v, the span-a EMA accumulates a strictly smaller total distance to
the new value v than the span-b EMA over any non-empty window of W
indices starting at the step index. -/
theorem ema_short_span_reacts_faster (a b m n W : ℕ) (u v : ℚ)
    (ha : 1 ≤ a) (hab : a < b) (hW : 1 ≤ W) (hWn : W ≤ n) (huv : u ≠ v) :
    cumDist (alphaOfSpan a) (stepSeries (m + 1) n u v) (m + 1) W v <
      cumDist (alphaOfSpan b) (stepSeries (m + 1) n u v) (m + 1) W v := by
  have hra : 0 ≤ 1 - alphaOfSpan a := by
    have h1 := alphaOfSpan_le_one a ha
    linarith
  have hb2 : 2 ≤ b := by omega
  have hrb : 0 < 1 - alphaOfSpan b := by
    have h1 := alphaOfSpan_lt_one b hb2
    linarith
  have hlt : 1 - alphaOfSpan a < 1 - alphaOfSpan b := by
    have h1 := alphaOfSpan_strict_anti a b hab
    linarith
  unfold cumDist
  apply Finset.sum_lt_sum_of_nonempty
  · exact Finset.nonempty_range_iff.mpr (by omega)
  · intro t htW
    have htn : t < n := lt_of_lt_of_le (Finset.mem_range.mp htW) hWn
    rw [ema_step_getD (alphaOfSpan a) u v m n t htn,
      ema_step_getD (alphaOfSpan b) u v m n t htn]
    have h1 : |v + (1 - alphaOfSpan a) ^ (t + 1) * (u - v) - v| =
        (1 - alphaOfSpan a) ^ (t + 1) * |u - v| := by
      rw [add_sub_cancel_left, abs_mul, abs_of_nonneg (pow_nonneg hra _)]
    have h2 : |v + (1 - alphaOfSpan b) ^ (t + 1) * (u - v) - v| =
        (1 - alphaOfSpan b) ^ (t + 1) * |u - v| := by
      rw [add_sub_cancel_left, abs_mul, abs_of_nonneg (pow_nonneg (le_of_lt hrb) _)]
    rw [h1, h2]
    have huv2 : 0 < |u - v| := abs_pos.mpr (sub_ne_zero.mpr huv)
    have hpow : (1 - alphaOfSpan a) ^ (t + 1) < (1 - alphaOfSpan b) ^ (t + 1) :=
      pow_lt_pow_left₀ hlt hra (Nat.succ_ne_zero t)
    exact mul_lt_mul_of_pos_right hpow huv2

theorem ema_short_span_reacts_faster_witness :
    (1 ≤ 9 ∧ 9 < 21 ∧ 1 ≤ 1 ∧ 1 ≤ 1 ∧ (0 : ℚ) ≠ 1) ∧
    cumDist (alphaOfSpan 9) (stepSeries (0 + 1) 1 0 1) (0 + 1) 1 1 <
      cumDist (alphaOfSpan 21) (stepSeries (0 + 1) 1 0 1) (0 + 1) 1 1 :=
  ⟨⟨by decide, by decide, by decide, by decide, by decide⟩,
   ema_short_span_reacts_faster 9 21 0 1 1 0 1 (by decide) (by decide)
     (by decide) (by decide) (by decide)⟩

end CryptoCharts
